import Mathlib

/-!
Verification of the electro-rss ingestion-and-cache pipeline
(src/electro-rss.py) against its natural-language specification.

The Python source is shallowly embedded as executable Lean definitions:

* strings are `List Char` (the embedding is exact for ASCII text; the
  regexes of the source only use ASCII character classes);
* the regular-expression searches of the source (`TITLE_RE`, `QUALITY_RE`,
  `LEKTOR_RE`, `NAPISY_RE`, `DUBBING_RE` and the inline season/episode
  patterns) are embedded as deterministic scanners that reproduce the
  leftmost-match-with-backtracking semantics of `re.search` on these
  particular patterns;
* timestamps are integers (`datetime` values are totally ordered and
  `isoformat` is order-preserving for the values the program produces);
* the filesystem state of the thumbnail cache is a list of file records,
  HTTP responses and download outcomes are inductive types, and all
  `try/except` blocks of the source become total functions.
-/

namespace ElectroRSS

/-- Strings of the embedded program: lists of characters. -/
abbrev Str := List Char

/-- ASCII model of Python's `\s` class (re module, ASCII range):
space, tab, newline, carriage return, vertical tab, form feed. -/
def pySpace (c : Char) : Bool :=
  c == ' ' || c == '\t' || c == '\n' || c == '\r' || c == '\x0b' || c == '\x0c'

/-- Model of Python's `\w` class in the ASCII range: letters, digits, `_`. -/
def isWord (c : Char) : Bool := c.isAlphanum || c == '_'

/-- Lowercasing, modelling `str.lower()` on ASCII text. -/
def lowerStr (s : Str) : Str := s.map Char.toLower

/-- Drop the leading whitespace run (the deterministic residue of a greedy
`\s*` that is followed by a non-whitespace literal). -/
def skipWs (cs : Str) : Str := cs.dropWhile pySpace

/-- Python's `str.strip()`: remove whitespace from both ends. -/
def stripWs (s : Str) : Str := ((s.dropWhile pySpace).reverse.dropWhile pySpace).reverse

/-- Bracket characters removed by `.strip('[]')` in the source. -/
def isBracket (c : Char) : Bool := c == '[' || c == ']'

/-- Python's `str.strip('[]')`: remove `[` and `]` from both ends. -/
def stripBrackets (s : Str) : Str :=
  ((s.dropWhile isBracket).reverse.dropWhile isBracket).reverse

/-- Case-insensitive literal prefix match. `pat` is given in lowercase;
on success returns the matched text (original case) and the rest. -/
def ciPrefix : Str → Str → Option (Str × Str)
  | [], cs => some ([], cs)
  | _ :: _, [] => none
  | p :: ps, c :: cs =>
    if c.toLower = p then
      match ciPrefix ps cs with
      | some (m, r) => some (c :: m, r)
      | none => none
    else none

/-- Case-sensitive literal prefix consumption (for patterns run on
already-lowercased text); returns the rest on success. -/
def litPrefix : Str → Str → Option Str
  | [], cs => some cs
  | _ :: _, [] => none
  | p :: ps, c :: cs => if c = p then litPrefix ps cs else none

/-- Python's `needle in haystack` substring test. -/
def containsSub (needle : Str) : Str → Bool
  | [] => needle.isEmpty
  | c :: rest => List.isPrefixOf needle (c :: rest) || containsSub needle rest

/-- True when the next character cannot extend a word: models a `\b`
boundary placed after a word character. -/
def headNotWord : Str → Bool
  | [] => true
  | c :: _ => !(isWord c)

/-- Digit-bounded capture `\d{1,maxLen}` followed by an element that cannot
consume a digit (`\s*` + literal, or `\b`): the regex engine takes the whole
digit run and fails when the run exceeds `maxLen`, because every backtrack
still leaves a digit in front of the next element. -/
def takeDigits (maxLen : Nat) (cs : Str) : Option (Str × Str) :=
  let ds := cs.takeWhile Char.isDigit
  if ds.length = 0 ∨ maxLen < ds.length then none
  else some (ds, cs.drop ds.length)

/-- Numeric value of a digit string, modelling `int(...)`. -/
def digitsToNat (ds : Str) : Nat :=
  ds.foldl (fun n c => n * 10 + (c.toNat - '0'.toNat)) 0

/-- Decimal rendering of a number, modelling `str(...)` of an int. -/
def natToStr (n : Nat) : Str := Nat.toDigits 10 n

/-- Plain leftmost search of a position matcher (for patterns without a
leading `\b`): try `tryAt` at each suffix, earliest success wins. -/
def rsearch (tryAt : Str → Option α) : Str → Option α
  | [] => none
  | c :: rest =>
    match tryAt (c :: rest) with
    | some a => some a
    | none => rsearch tryAt rest

/-- Leftmost search for a pattern that starts with `\b` followed by a word
character: `tryAt` is attempted only at positions whose previous character
is not a word character (the start of the string counts). -/
def bsearchGo (tryAt : Str → Option α) : Bool → Str → Option α
  | _, [] => none
  | prevW, c :: rest =>
    match (if prevW then none else tryAt (c :: rest)) with
    | some a => some a
    | none => bsearchGo tryAt (isWord c) rest

/-- Boundary-aware leftmost search (see `bsearchGo`). -/
def bsearch (tryAt : Str → Option α) (s : Str) : Option α := bsearchGo tryAt false s

/-! ### TITLE_RE: `^(?P<title>.+?)\s*\((?P<year>\d{4})\)` -/

/-- Match `\(\d{4}\)` at the head of the string, returning the year digits. -/
def yearParen : Str → Option Str
  | '(' :: a :: b :: c :: d :: ')' :: _ =>
    if a.isDigit && b.isDigit && c.isDigit && d.isDigit then some [a, b, c, d] else none
  | _ => none

/-- Core of the anchored `TITLE_RE` search: the non-greedy `.+?` grows the
title one character at a time (never across a newline, which `.` cannot
match) and at each length the greedy-but-deterministic `\s*\(\d{4}\)` tail
is attempted; the first length that succeeds wins. -/
def titleGo (acc : Str) : Str → Option (Str × Str)
  | [] => none
  | c :: rest =>
    if c = '\n' then none
    else
      match yearParen (skipWs rest) with
      | some y => some (acc ++ [c], y)
      | none => titleGo (acc ++ [c]) rest

/-- `TITLE_RE.search(txt)`: on success returns (raw title capture, year). -/
def titleSearch (s : Str) : Option (Str × Str) := titleGo [] s

/-! ### QUALITY_RE: `\b(2160p|1080p|720p)\b`, case-insensitive -/

/-- One alternative of `QUALITY_RE` at the current position: match `pat`
case-insensitively and require a trailing word boundary. -/
def qualAlt (pat : Str) (cs : Str) : Option Str :=
  match ciPrefix pat cs with
  | some (m, r) => if headNotWord r then some m else none
  | none => none

/-- `QUALITY_RE` at one position: the three alternatives in pattern order. -/
def qualityAt (cs : Str) : Option Str :=
  match qualAlt "2160p".data cs with
  | some m => some m
  | none =>
    match qualAlt "1080p".data cs with
    | some m => some m
    | none => qualAlt "720p".data cs

/-! ### LEKTOR_RE / NAPISY_RE / DUBBING_RE

`(Lektor\s*[^\]/&\s]+(?:\s*AI|\s*\(AI\))?)` and its two analogues
(`DUBBING_RE` has no optional `AI` tail). The patterns have no word
boundaries and are case-insensitive. -/

/-- Characters that terminate the `[^\]/&\s]+` body. -/
def isTagStop (c : Char) : Bool := c == ']' || c == '/' || c == '&' || pySpace c

/-- The optional `(?:\s*AI|\s*\(AI\))?` tail: returns the consumed text
(empty when neither alternative matches) and the rest. -/
def optAI (cs : Str) : Str × Str :=
  let ws := cs.takeWhile pySpace
  let r := cs.drop ws.length
  match ciPrefix "ai".data r with
  | some (m, r2) => (ws ++ m, r2)
  | none =>
    match ciPrefix "(ai)".data r with
    | some (m, r2) => (ws ++ m, r2)
    | none => ([], cs)

/-- One tag pattern at the current position: case-insensitive keyword,
whitespace, a non-empty greedy body, and (for `Lektor`/`Napisy`) the
optional `AI` tail. Returns the full group-1 text. -/
def tagAt (word : Str) (withAI : Bool) (cs : Str) : Option Str :=
  match ciPrefix word cs with
  | none => none
  | some (m, r) =>
    let ws := r.takeWhile pySpace
    let r1 := r.drop ws.length
    let body := r1.takeWhile (fun c => !(isTagStop c))
    if body.isEmpty then none
    else
      let r2 := r1.drop body.length
      let ai := if withAI then (optAI r2).1 else []
      some (m ++ ws ++ body ++ ai)

/-! ### Season/episode patterns (run on the lowercased title) -/

/-- `\bs\s*(\d{1,2})\s*e\s*(\d{1,3})\b` at one position (boundary before
`s` is handled by `bsearch`); returns the two numbers. -/
def combinedAt (cs : Str) : Option (Nat × Nat) :=
  match cs with
  | 's' :: r =>
    match takeDigits 2 (skipWs r) with
    | none => none
    | some (d1, r1) =>
      match skipWs r1 with
      | 'e' :: r2 =>
        match takeDigits 3 (skipWs r2) with
        | none => none
        | some (d2, r3) =>
          if headNotWord r3 then some (digitsToNat d1, digitsToNat d2) else none
      | _ => none
  | _ => none

/-- `\bsezon\s*(\d{1,2})\b` at one position. -/
def sezonAt (cs : Str) : Option Nat :=
  match litPrefix "sezon".data cs with
  | none => none
  | some r =>
    match takeDigits 2 (skipWs r) with
    | none => none
    | some (d, r1) => if headNotWord r1 then some (digitsToNat d) else none

/-- `\bs\s*(\d{1,2})\b` at one position. -/
def sAloneAt (cs : Str) : Option Nat :=
  match cs with
  | 's' :: r =>
    match takeDigits 2 (skipWs r) with
    | none => none
    | some (d, r1) => if headNotWord r1 then some (digitsToNat d) else none
  | _ => none

/-- `\be\s*(\d{1,3})\s*[-–]\s*(\d{1,3})\b` at one position. -/
def rangeAt (cs : Str) : Option (Nat × Nat) :=
  match cs with
  | 'e' :: r =>
    match takeDigits 3 (skipWs r) with
    | none => none
    | some (d1, r1) =>
      match skipWs r1 with
      | c :: r2 =>
        if c = '-' ∨ c = '–' then
          match takeDigits 3 (skipWs r2) with
          | none => none
          | some (d2, r3) =>
            if headNotWord r3 then some (digitsToNat d1, digitsToNat d2) else none
        else none
      | [] => none
  | _ => none

/-- `\be\s*(\d{1,3})\b` at one position. -/
def singleEAt (cs : Str) : Option Nat :=
  match cs with
  | 'e' :: r =>
    match takeDigits 3 (skipWs r) with
    | none => none
    | some (d, r1) => if headNotWord r1 then some (digitsToNat d) else none
  | _ => none

/-- Season/episode extraction of `parse_entries` for the series category,
on the lowercased title: the combined `S<n>E<n>` pattern wins outright;
otherwise season from `sezon <n>` else `s <n>`, and independently episode
from the range `e <n>-<m>` (rendered `"<n>-<m>"`) else a single `e <n>`;
an empty string stands for "not found". -/
def seasonEpisode (low : Str) : Str × Str :=
  match bsearch combinedAt low with
  | some (s, ep) => (natToStr s, natToStr ep)
  | none =>
    let s := match bsearch sezonAt low with
      | some n => natToStr n
      | none =>
        match bsearch sAloneAt low with
        | some n => natToStr n
        | none => []
    let ep := match bsearch rangeAt low with
      | some p => natToStr p.1 ++ '-' :: natToStr p.2
      | none =>
        match bsearch singleEAt low with
        | some n => natToStr n
        | none => []
    (s, ep)

/-! ### Data model -/

/-- One raw feed entry as seen by `parse_entries`. `pub` is the resolved
publish timestamp (`published_parsed` preferred, else the parsed
`published` header); `none` models an unparsable or missing date. `thumb`
is the first media-thumbnail/media-content url, `[]` when absent. -/
structure RawEntry where
  title : Str
  link : Str
  pub : Option Int
  thumb : Str
deriving DecidableEq, Repr

/-- One parsed release record (the dict built by `parse_entries`). -/
structure Item where
  category : Str
  title : Str
  year : Str
  quality : Str
  lektor : Str
  napisy : Str
  dubbing : Str
  thumb : Str
  link : Str
  pubDate : Int
  season : Str
  episode : Str
deriving DecidableEq, Repr

/-- The item dict literal of `parse_entries`, built from an accepted entry:
field for field the expressions of the source. -/
def buildItem (cat : Str) (e : RawEntry) (pub : Int) (raw y : Str) : Item :=
  let txt := e.title
  let low := lowerStr txt
  let se := if lowerStr cat = "seriale".data then seasonEpisode low else ([], [])
  { category := cat
    title := stripWs raw
    year := y
    quality := (bsearch qualityAt txt).getD []
    lektor :=
      match rsearch (tagAt "lektor".data true) txt with
      | some m => stripBrackets m
      | none => if containsSub "film polski".data low then "Film Polski".data else "Nie".data
    napisy :=
      match rsearch (tagAt "napisy".data true) txt with
      | some m => stripBrackets m
      | none => "Nie".data
    dubbing :=
      match rsearch (tagAt "dubbing".data false) txt with
      | some m => stripBrackets m
      | none => "Nie".data
    thumb := e.thumb
    link := e.link
    pubDate := pub
    season := se.1
    episode := se.2 }

/-- The per-entry pipeline of `parse_entries`: drop on unparsable date,
drop when before the cutoff, drop when `TITLE_RE` fails or the year is
outside the hardcoded allow-list `('2025', '2024')`, else build the item. -/
def parseEntry (cat : Str) (cutoff : Int) (e : RawEntry) : Option Item :=
  match e.pub with
  | none => none
  | some pub =>
    if pub < cutoff then none
    else
      match titleSearch e.title with
      | none => none
      | some (raw, y) =>
        if y = "2025".data ∨ y = "2024".data then some (buildItem cat e pub raw y) else none

/-- `parse_entries(cat, feed, cutoff)`: the per-entry pipeline over the
feed's entries, preserving feed order. -/
def parse_entries (cat : Str) (entries : List RawEntry) (cutoff : Int) : List Item :=
  entries.filterMap (parseEntry cat cutoff)

/-! ### FeedFetcher: `_fetch_feed_bytes` -/

/-- Per-source conditional metadata, modelling the per-URL dict stored in
`state.json`: each of the two header values is present or absent.
The empty dict `{}` corresponds to both fields `none`. -/
structure FeedMeta where
  etag : Option Str
  modified : Option Str
deriving DecidableEq, Repr

/-- The empty metadata dict `{}` (falsy in Python). -/
def emptyMeta : FeedMeta := ⟨none, none⟩

/-- What the HTTP layer hands back for one feed request: a 304, a 2xx with
optional validator headers and a body (modelled as the entries the body
parses to), or anything that raises (transport error or a non-2xx status
via `raise_for_status`). -/
inductive HttpResponse where
  | notModified
  | ok (etag : Option Str) (modified : Option Str) (body : List RawEntry)
  | httpError
deriving DecidableEq, Repr

/-- `_fetch_feed_bytes(url, meta)`: `.error` models the raised exception;
on 304 the body is `none` and `meta` is returned unchanged; on 2xx the new
meta is built from the response headers, falling back to the old `meta`
when the resulting dict is empty (`new_meta or meta`). -/
def _fetch_feed_bytes (meta : FeedMeta) : HttpResponse → Except Unit (Option (List RawEntry) × FeedMeta)
  | .notModified => .ok (none, meta)
  | .httpError => .error ()
  | .ok etag lm body =>
    let newMeta : FeedMeta := ⟨etag, lm⟩
    .ok (some body, if newMeta = emptyMeta then meta else newMeta)

/-! ### ItemStore: `_one` and `fetch_items` -/

/-- The stale-fallback filter of `_one`: the previous snapshot restricted
to this source's category and to publish timestamps at or after the
cutoff, in snapshot order. -/
def prevFiltered (prev : List Item) (cat : Str) (cutoff : Int) : List Item :=
  prev.filter (fun it => decide (it.category = cat) && decide (cutoff ≤ it.pubDate))

/-- `_one(cat, url)` of `fetch_items`, as a function of this source's HTTP
outcome: an exception from the fetch or a 304 body yields the filtered
previous snapshot (with the old resp. unchanged meta); a body yields the
freshly parsed entries and the new meta. -/
def _one (cat : Str) (prev : List Item) (cutoff : Int) (meta : FeedMeta)
    (resp : HttpResponse) : List Item × FeedMeta :=
  match _fetch_feed_bytes meta resp with
  | .error _ => (prevFiltered prev cat cutoff, meta)
  | .ok (none, newMeta) => (prevFiltered prev cat cutoff, newMeta)
  | .ok (some body, newMeta) => (parse_entries cat body cutoff, newMeta)

/-- Stable insertion step: `x` is placed after every earlier element `y`
with `later x y`, before the first other one. -/
def insertBy (later : α → α → Bool) (x : α) : List α → List α
  | [] => [x]
  | y :: ys => if later x y then y :: insertBy later x ys else x :: y :: ys

/-- Stable sort by the strict comes-after test `later`: the embedding of
Python's stable `list.sort`, which on ties keeps input order. -/
def isort (later : α → α → Bool) : List α → List α
  | [] => []
  | x :: xs => insertBy later x (isort later xs)

/-- The comes-after test of `results.sort(key=pubDate, reverse=True)`:
in a descending list, `x` goes strictly after `y` iff its key is smaller;
on equal keys the stable sort keeps concatenation order. -/
def itemLater (x y : Item) : Bool := decide (x.pubDate < y.pubDate)

/-- The merge step of `fetch_items(days)`: the per-source contributions
(in completion order) are concatenated and sorted descending by publish
timestamp with a stable sort. -/
def fetch_items (contribs : List (List Item)) : List Item :=
  isort itemLater contribs.flatten

/-! ### ThumbnailCache: `load_thumb_async` -/

/-- Outcome of the thumbnail GET for one url: failure before any body byte
is written (timeout, connection error, non-2xx via `raise_for_status`),
failure while streaming the body after some chunks were written, or a
complete body. -/
inductive DlResult where
  | failBefore
  | failDuring (received : List (List Nat))
  | success (chunks : List (List Nat))
deriving DecidableEq, Repr

/-- The `work()` closure of `load_thumb_async`, for one url key: takes the
current cache file contents for the key (`none` = no file) and the
download outcome; returns the resulting file contents and the bytes handed
on to the pixbuf step (`none` models "absent", i.e. no image delivered).
All exceptions are swallowed (`except: return`), so the function is total.
Writing only the non-empty chunks of `iter_content` produces exactly the
concatenation of all chunks, and when the stream fails mid-body the
`with open(path, 'wb')` block has already created the file, so the chunks
received so far remain on disk. -/
def load_thumb_async (existing : Option (List Nat)) (dl : DlResult) :
    Option (List Nat) × Option (List Nat) :=
  match existing with
  | some b => (some b, some b)
  | none =>
    match dl with
    | .failBefore => (none, none)
    | .failDuring received => (some received.flatten, none)
    | .success chunks => (some chunks.flatten, some chunks.flatten)

/-! ### ThumbnailCache: `cleanup_thumbs` -/

/-- One file of the thumbnail cache directory: name (with extension),
modification time and size as reported by `os.stat`. -/
structure FileEnt where
  name : Str
  mtime : Int
  size : Nat
deriving DecidableEq, Repr

/-- Python's `os.path.splitext(fn)[0]`: drop the extension starting at
the last dot that has a non-dot character somewhere before it; leading
dots belong to the stem. -/
def splitextStem (fn : Str) : Str :=
  match ((List.range fn.length).filter
      (fun i => (fn.getD i 'x' == '.') && (fn.take i).any (fun c => c != '.'))).getLast? with
  | some i => fn.take i
  | none => fn

/-- The key of a cache file: the stem of its filename. -/
def stemOf (f : FileEnt) : Str := splitextStem f.name

/-- The arguments of `cleanup_thumbs`. `keep` models `keep_hashes`; a
`None` argument behaves like the empty list (both are falsy and contain
nothing). A zero bound models the falsy `0` that disables that check. -/
structure SweepCfg where
  maxBytes : Nat
  maxFiles : Nat
  maxAgeDays : Nat
  keep : List Str
deriving Repr

/-- The age-phase removal test:
`max_age_days and age_days > max_age_days and (not keep_hashes or base not in keep_hashes)`,
with `(now - mtime) / 86400.0 > max_age_days` rewritten without the
division. -/
def ageCond (cfg : SweepCfg) (now : Int) (f : FileEnt) : Bool :=
  (cfg.maxAgeDays != 0) && decide ((cfg.maxAgeDays : Int) * 86400 < now - f.mtime)
    && !(decide (stemOf f ∈ cfg.keep))

/-- The age phase of `cleanup_thumbs` over the directory listing: returns
(the surviving entries in listing order, the removed files). -/
def agePhase (cfg : SweepCfg) (now : Int) : List FileEnt → List FileEnt × List FileEnt
  | [] => ([], [])
  | f :: fs =>
    let r := agePhase cfg now fs
    if ageCond cfg now f then (r.1, f :: r.2) else (f :: r.1, r.2)

/-- Entry test of the capacity phase:
`(max_bytes and total_size > max_bytes) or (max_files and total_files > max_files)`. -/
def capTrigger (cfg : SweepCfg) (tsz tfc : Nat) : Bool :=
  ((cfg.maxBytes != 0) && decide (cfg.maxBytes < tsz))
    || ((cfg.maxFiles != 0) && decide (cfg.maxFiles < tfc))

/-- Break test of the capacity loop:
`(not max_bytes or total_size <= max_bytes) and (not max_files or total_files <= max_files)`. -/
def capDone (cfg : SweepCfg) (tsz tfc : Nat) : Bool :=
  ((cfg.maxBytes == 0) || decide (tsz ≤ cfg.maxBytes))
    && ((cfg.maxFiles == 0) || decide (tfc ≤ cfg.maxFiles))

/-- The capacity loop of `cleanup_thumbs` over the mtime-sorted entries,
with the running totals: kept keys are skipped (and the break test is not
reached, which is equivalent because skipping changes no total), other
files are removed and the loop breaks as soon as both bounds hold.
Deletions are assumed to succeed (a failed `os.remove` is swallowed and
leaves the totals unchanged). Returns (survivors of this list, removed). -/
def capLoop (cfg : SweepCfg) : List FileEnt → Nat → Nat → List FileEnt × List FileEnt
  | [], _, _ => ([], [])
  | f :: fs, tsz, tfc =>
    if stemOf f ∈ cfg.keep then
      let r := capLoop cfg fs tsz tfc
      (f :: r.1, r.2)
    else
      let tsz' := tsz - f.size
      let tfc' := tfc - 1
      if capDone cfg tsz' tfc' then (fs, [f])
      else
        let r := capLoop cfg fs tsz' tfc'
        (r.1, f :: r.2)

/-- Total size of a list of cache files. -/
def sumSize (l : List FileEnt) : Nat := (l.map (fun f => f.size)).sum

/-- Ascending-mtime comes-after test of `entries.sort(key=lambda e: e[1])`. -/
def fileLater (x y : FileEnt) : Bool := decide (y.mtime < x.mtime)

/-- `cleanup_thumbs(max_bytes, max_files, max_age_days, keep_hashes)` over
a directory listing (every listed entry is a regular file whose `stat`
succeeds): age phase, then — when a bound is exceeded — the capacity loop
over the entries sorted ascending by mtime. Returns
(remaining files, files removed by the age phase, files removed by the
capacity phase). -/
def cleanup_thumbs (cfg : SweepCfg) (now : Int) (listing : List FileEnt) :
    List FileEnt × List FileEnt × List FileEnt :=
  let ap := agePhase cfg now listing
  let tsz := sumSize ap.1
  let tfc := ap.1.length
  if capTrigger cfg tsz tfc then
    let r := capLoop cfg (isort fileLater ap.1) tsz tfc
    (r.1, ap.2, r.2)
  else (ap.1, ap.2, [])

/-! ### Lemmas about the stable insertion sort -/

theorem insertBy_perm (later : α → α → Bool) (x : α) (l : List α) :
    List.Perm (insertBy later x l) (x :: l) := by
  induction l with
  | nil => simp [insertBy]
  | cons y ys ih =>
    by_cases h : later x y
    · simp only [insertBy, if_pos h]
      exact (ih.cons y).trans (List.Perm.swap x y ys)
    · simp [insertBy, if_neg h]

theorem isort_perm (later : α → α → Bool) (l : List α) :
    List.Perm (isort later l) l := by
  induction l with
  | nil => simp [isort]
  | cons x xs ih => exact (insertBy_perm later x (isort later xs)).trans (ih.cons x)

theorem insertBy_pairwise (later : α → α → Bool)
    (hasym : ∀ a b, later a b = true → later b a = false)
    (htr : ∀ a b c, later a c = true → later a b = true ∨ later b c = true)
    (x : α) (l : List α) (hl : l.Pairwise (fun a b => later a b = false)) :
    (insertBy later x l).Pairwise (fun a b => later a b = false) := by
  induction l with
  | nil => simp [insertBy]
  | cons y ys ih =>
    rcases List.pairwise_cons.mp hl with ⟨hy, hys⟩
    by_cases h : later x y
    · simp only [insertBy, if_pos h]
      refine List.pairwise_cons.mpr ⟨?_, ih hys⟩
      intro z hz
      rcases List.mem_cons.mp ((insertBy_perm later x ys).mem_iff.mp hz) with heq | hz'
      · rw [heq]; exact hasym x y h
      · exact hy z hz'
    · simp only [insertBy, if_neg h]
      have hxy : later x y = false := by
        cases hv : later x y
        · rfl
        · exact absurd hv h
      refine List.pairwise_cons.mpr ⟨?_, hl⟩
      intro z hz
      rcases List.mem_cons.mp hz with heq | hz'
      · rw [heq]; exact hxy
      · cases hv : later x z
        · rfl
        · rcases htr x y z hv with h1 | h2
          · exact absurd h1 h
          · exact absurd h2 (by simp [hy z hz'])

theorem isort_pairwise (later : α → α → Bool)
    (hasym : ∀ a b, later a b = true → later b a = false)
    (htr : ∀ a b c, later a c = true → later a b = true ∨ later b c = true)
    (l : List α) : (isort later l).Pairwise (fun a b => later a b = false) := by
  induction l with
  | nil => simp [isort]
  | cons x xs ih => exact insertBy_pairwise later hasym htr x (isort later xs) ih

theorem insertBy_filter_pub (x : Item) (l : List Item) (t : Int) :
    (insertBy itemLater x l).filter (fun it => decide (it.pubDate = t))
      = if x.pubDate = t then x :: l.filter (fun it => decide (it.pubDate = t))
        else l.filter (fun it => decide (it.pubDate = t)) := by
  induction l with
  | nil =>
    by_cases hx : x.pubDate = t <;> simp [insertBy, List.filter_cons, hx]
  | cons y ys ih =>
    cases hxy : itemLater x y
    · have h' : ¬ itemLater x y = true := by simp [hxy]
      simp only [insertBy, if_neg h']
      by_cases hx : x.pubDate = t <;> simp [List.filter_cons, hx]
    · simp only [insertBy, if_pos hxy]
      have hlt : x.pubDate < y.pubDate := by simpa [itemLater] using hxy
      by_cases hx : x.pubDate = t
      · have hy : ¬ y.pubDate = t := by omega
        simp [List.filter_cons, hx, hy, ih]
      · simp [List.filter_cons, ih, hx]

theorem isort_filter_pub (l : List Item) (t : Int) :
    (isort itemLater l).filter (fun it => decide (it.pubDate = t))
      = l.filter (fun it => decide (it.pubDate = t)) := by
  induction l with
  | nil => rfl
  | cons x xs ih =>
    by_cases hx : x.pubDate = t <;>
      simp [isort, insertBy_filter_pub, ih, List.filter_cons, hx]

/-! ### Claim theorems: ItemStore and FeedFetcher -/

/-- C9: the sequence produced by `fetch_items` is the concatenation of the
per-source contributions sorted descending by publish timestamp by a
stable sort: the output is pairwise descending, is a permutation of the
concatenation, and for every timestamp the sublist of items carrying that
timestamp is exactly the one of the concatenation, in the same order. -/
theorem C9_sorted_stable (contribs : List (List Item)) :
    (fetch_items contribs).Pairwise (fun a b => b.pubDate ≤ a.pubDate)
      ∧ List.Perm (fetch_items contribs) contribs.flatten
      ∧ ∀ t : Int, (fetch_items contribs).filter (fun it => decide (it.pubDate = t))
          = contribs.flatten.filter (fun it => decide (it.pubDate = t)) := by
  refine ⟨?_, isort_perm itemLater contribs.flatten,
    fun t => isort_filter_pub contribs.flatten t⟩
  have hp := isort_pairwise itemLater
    (fun a b h => by simp [itemLater] at h ⊢; omega)
    (fun a b c h => by simp [itemLater] at h ⊢; omega)
    contribs.flatten
  exact hp.imp (fun {a b} h => by simp [itemLater] at h; omega)

/-- C1: a source whose fetch raises or returns HTTP 304 contributes
exactly the previously persisted items of its own category with publish
timestamp at or after the cutoff, as a sublist of the previous snapshot
(previous relative order preserved). Each source is handled by its own
`_one` call, so the outcome of one source never changes another's
contribution. -/
theorem C1_stale_fallback (cat : Str) (prev : List Item) (cutoff : Int) (meta : FeedMeta)
    (resp : HttpResponse)
    (h : resp = HttpResponse.notModified ∨ resp = HttpResponse.httpError) :
    (_one cat prev cutoff meta resp).1
        = prev.filter (fun it => decide (it.category = cat) && decide (cutoff ≤ it.pubDate))
      ∧ List.Sublist (_one cat prev cutoff meta resp).1 prev
      ∧ ∀ it : Item, it ∈ (_one cat prev cutoff meta resp).1
          ↔ (it ∈ prev ∧ it.category = cat ∧ cutoff ≤ it.pubDate) := by
  have hone : (_one cat prev cutoff meta resp).1 = prevFiltered prev cat cutoff := by
    rcases h with rfl | rfl <;> rfl
  refine ⟨hone, ?_, ?_⟩
  · rw [hone]; exact List.filter_sublist prev
  · intro it; rw [hone]; simp [prevFiltered, List.mem_filter]

theorem C1_stale_fallback_witness :
    (_one "Seriale".data [] 0 emptyMeta HttpResponse.notModified).1 = [] := by
  have h := C1_stale_fallback "Seriale".data [] 0 emptyMeta HttpResponse.notModified (Or.inl rfl)
  simpa using h.1

/-- C8: `_fetch_feed_bytes` returns the input meta unchanged on HTTP 304;
on a 2xx response it returns exactly the validators of the response, and
when the response carries neither validator the input meta is carried
forward unchanged (sticky metadata). -/
theorem C8_sticky_meta (meta : FeedMeta) (etag lm : Option Str) (body : List RawEntry) :
    _fetch_feed_bytes meta HttpResponse.notModified = .ok (none, meta)
      ∧ _fetch_feed_bytes meta (.ok none none body) = .ok (some body, meta)
      ∧ ((etag ≠ none ∨ lm ≠ none) →
          _fetch_feed_bytes meta (.ok etag lm body) = .ok (some body, ⟨etag, lm⟩)) := by
  refine ⟨rfl, by simp [_fetch_feed_bytes, emptyMeta], ?_⟩
  intro h
  simp only [_fetch_feed_bytes]
  rw [if_neg]
  intro hc
  rw [emptyMeta] at hc
  rcases h with h | h
  · exact h (congrArg FeedMeta.etag hc)
  · exact h (congrArg FeedMeta.modified hc)

theorem C8_sticky_meta_witness :
    _fetch_feed_bytes emptyMeta (.ok (some "e".data) none [])
      = .ok (some [], ⟨some "e".data, none⟩) :=
  (C8_sticky_meta emptyMeta (some "e".data) none []).2.2 (Or.inl (by simp))

/-- C2 counterexample: with no file cached for the key and a download that
fails while the body is being received (one chunk of one byte already
written), the `work()` closure of `load_thumb_async` leaves a file with
the received bytes on disk — the cache state for the key is NOT unchanged,
refuting the claim that a failed fetch leaves no file. -/
theorem C2_thumb_counterexample :
    (load_thumb_async none (DlResult.failDuring [[55]])).1 = some [55]
      ∧ (load_thumb_async none (DlResult.failDuring [[55]])).1 ≠ none
      ∧ (load_thumb_async none (DlResult.failDuring [[55]])).2 = none := by
  refine ⟨rfl, by simp [load_thumb_async], rfl⟩

/-- C2 (amended): a download failure never raises (the embedding is a
total function) and always yields `absent`; a failure before any body
byte is transferred leaves no file, while a failure during the body
leaves the (possibly empty) received part as the cache file for the key. -/
theorem C2_thumb_failure (received : List (List Nat)) :
    load_thumb_async none DlResult.failBefore = (none, none)
      ∧ load_thumb_async none (DlResult.failDuring received) = (some received.flatten, none) :=
  ⟨rfl, rfl⟩

/-! ### Lemmas about `cleanup_thumbs` -/

theorem agePhase_eq (cfg : SweepCfg) (now : Int) (l : List FileEnt) :
    agePhase cfg now l
      = (l.filter (fun f => !(ageCond cfg now f)), l.filter (fun f => ageCond cfg now f)) := by
  induction l with
  | nil => rfl
  | cons f fs ih =>
    simp only [agePhase, ih]
    cases hc : ageCond cfg now f <;> simp [List.filter_cons, hc]

theorem sumSize_cons (f : FileEnt) (fs : List FileEnt) :
    sumSize (f :: fs) = f.size + sumSize fs := by
  simp [sumSize]

theorem sumSize_perm {l l' : List FileEnt} (h : List.Perm l l') : sumSize l = sumSize l' := by
  unfold sumSize
  exact (h.map (fun f => f.size)).sum_eq

theorem capLoop_cons (cfg : SweepCfg) (f : FileEnt) (fs : List FileEnt) (tsz tfc : Nat) :
    capLoop cfg (f :: fs) tsz tfc
      = if stemOf f ∈ cfg.keep then
          (f :: (capLoop cfg fs tsz tfc).1, (capLoop cfg fs tsz tfc).2)
        else if capDone cfg (tsz - f.size) (tfc - 1) then (fs, [f])
        else ((capLoop cfg fs (tsz - f.size) (tfc - 1)).1,
              f :: (capLoop cfg fs (tsz - f.size) (tfc - 1)).2) := rfl

theorem cleanup_thumbs_eq (cfg : SweepCfg) (now : Int) (listing : List FileEnt) :
    cleanup_thumbs cfg now listing
      = if capTrigger cfg (sumSize (agePhase cfg now listing).1)
            ((agePhase cfg now listing).1.length) then
          ((capLoop cfg (isort fileLater (agePhase cfg now listing).1)
              (sumSize (agePhase cfg now listing).1) ((agePhase cfg now listing).1.length)).1,
           (agePhase cfg now listing).2,
           (capLoop cfg (isort fileLater (agePhase cfg now listing).1)
              (sumSize (agePhase cfg now listing).1) ((agePhase cfg now listing).1.length)).2)
        else ((agePhase cfg now listing).1, (agePhase cfg now listing).2, []) := rfl

theorem capLoop_keep_mem (cfg : SweepCfg) :
    ∀ (l : List FileEnt) (tsz tfc : Nat) (f : FileEnt),
      f ∈ l → stemOf f ∈ cfg.keep → f ∈ (capLoop cfg l tsz tfc).1 := by
  intro l
  induction l with
  | nil => intro _ _ f hf _; simp at hf
  | cons g gs ih =>
    intro tsz tfc f hf hk
    rw [capLoop_cons]
    by_cases hg : stemOf g ∈ cfg.keep
    · rw [if_pos hg]
      rcases List.mem_cons.mp hf with heq | hf'
      · rw [heq]; exact List.mem_cons_self _ _
      · exact List.mem_cons_of_mem _ (ih _ _ _ hf' hk)
    · rw [if_neg hg]
      rcases List.mem_cons.mp hf with heq | hf'
      · exact absurd (heq ▸ hk) hg
      · by_cases hd : capDone cfg (tsz - g.size) (tfc - 1) = true
        · rw [if_pos hd]; exact hf'
        · rw [if_neg hd]; exact ih _ _ _ hf' hk

theorem capLoop_fst_mem (cfg : SweepCfg) :
    ∀ (l : List FileEnt) (tsz tfc : Nat) (f : FileEnt),
      f ∈ (capLoop cfg l tsz tfc).1 → f ∈ l := by
  intro l
  induction l with
  | nil => intro _ _ f h; simp [capLoop] at h
  | cons g gs ih =>
    intro tsz tfc f h
    rw [capLoop_cons] at h
    by_cases hg : stemOf g ∈ cfg.keep
    · rw [if_pos hg] at h
      rcases List.mem_cons.mp h with heq | h'
      · rw [heq]; exact List.mem_cons_self _ _
      · exact List.mem_cons_of_mem _ (ih _ _ _ h')
    · rw [if_neg hg] at h
      by_cases hd : capDone cfg (tsz - g.size) (tfc - 1) = true
      · rw [if_pos hd] at h; exact List.mem_cons_of_mem _ h
      · rw [if_neg hd] at h; exact List.mem_cons_of_mem _ (ih _ _ _ h)

theorem capLoop_allkept (cfg : SweepCfg) :
    ∀ (l : List FileEnt) (tsz tfc : Nat),
      (∀ f ∈ l, stemOf f ∈ cfg.keep) → capLoop cfg l tsz tfc = (l, []) := by
  intro l
  induction l with
  | nil => intro _ _ _; rfl
  | cons g gs ih =>
    intro tsz tfc h
    rw [capLoop_cons, if_pos (h g (List.mem_cons_self g gs)),
      ih tsz tfc (fun f hf => h f (List.mem_cons_of_mem g hf))]

theorem capLoop_snd_sublist (cfg : SweepCfg) :
    ∀ (l : List FileEnt) (tsz tfc : Nat), List.Sublist (capLoop cfg l tsz tfc).2 l := by
  intro l
  induction l with
  | nil => intro _ _; simp [capLoop]
  | cons g gs ih =>
    intro tsz tfc
    rw [capLoop_cons]
    by_cases hg : stemOf g ∈ cfg.keep
    · rw [if_pos hg]; exact (ih tsz tfc).cons g
    · rw [if_neg hg]
      by_cases hd : capDone cfg (tsz - g.size) (tfc - 1) = true
      · rw [if_pos hd]; exact (List.nil_sublist gs).cons₂ g
      · rw [if_neg hd]; exact (ih _ _).cons₂ g

theorem capLoop_bounds (cfg : SweepCfg) :
    ∀ (l : List FileEnt) (tsz tfc ksz kct : Nat),
      tsz = sumSize l + ksz → tfc = l.length + kct →
      ((cfg.maxBytes ≠ 0 → sumSize (capLoop cfg l tsz tfc).1 + ksz ≤ cfg.maxBytes)
          ∧ (cfg.maxFiles ≠ 0 → (capLoop cfg l tsz tfc).1.length + kct ≤ cfg.maxFiles))
        ∨ (∀ f ∈ (capLoop cfg l tsz tfc).1, stemOf f ∈ cfg.keep) := by
  intro l
  induction l with
  | nil => intro tsz tfc ksz kct _ _; right; intro f hf; simp [capLoop] at hf
  | cons g gs ih =>
    intro tsz tfc ksz kct hsz hct
    have hgsz : sumSize (g :: gs) = g.size + sumSize gs := sumSize_cons g gs
    have hglen : (g :: gs).length = gs.length + 1 := by simp
    rw [capLoop_cons]
    by_cases hg : stemOf g ∈ cfg.keep
    · rw [if_pos hg]
      rcases ih tsz tfc (ksz + g.size) (kct + 1) (by omega) (by omega) with ⟨h1, h2⟩ | hall
      · left
        constructor
        · intro hB
          have := h1 hB
          rw [sumSize_cons]
          omega
        · intro hF
          have := h2 hF
          simp only [List.length_cons]
          omega
      · right
        intro f hf
        rcases List.mem_cons.mp hf with heq | hf'
        · rw [heq]; exact hg
        · exact hall f hf'
    · rw [if_neg hg]
      by_cases hd : capDone cfg (tsz - g.size) (tfc - 1) = true
      · rw [if_pos hd]
        left
        have hd' : (cfg.maxBytes = 0 ∨ tsz - g.size ≤ cfg.maxBytes)
            ∧ (cfg.maxFiles = 0 ∨ tfc - 1 ≤ cfg.maxFiles) := by
          simpa [capDone, Bool.and_eq_true, Bool.or_eq_true] using hd
        constructor
        · intro hB
          show sumSize gs + ksz ≤ cfg.maxBytes
          rcases hd'.1 with h0 | hle
          · exact absurd h0 hB
          · omega
        · intro hF
          show gs.length + kct ≤ cfg.maxFiles
          rcases hd'.2 with h0 | hle
          · exact absurd h0 hF
          · omega
      · rw [if_neg hd]
        exact ih (tsz - g.size) (tfc - 1) ksz kct (by omega) (by omega)

theorem cleanup_pos_eq (cfg : SweepCfg) (now : Int) (listing : List FileEnt)
    (ht : capTrigger cfg (sumSize (agePhase cfg now listing).1)
      ((agePhase cfg now listing).1.length) = true) :
    cleanup_thumbs cfg now listing
      = ((capLoop cfg (isort fileLater (agePhase cfg now listing).1)
            (sumSize (agePhase cfg now listing).1) ((agePhase cfg now listing).1.length)).1,
         (agePhase cfg now listing).2,
         (capLoop cfg (isort fileLater (agePhase cfg now listing).1)
            (sumSize (agePhase cfg now listing).1) ((agePhase cfg now listing).1.length)).2) := by
  rw [cleanup_thumbs_eq, if_pos ht]

theorem cleanup_neg_eq (cfg : SweepCfg) (now : Int) (listing : List FileEnt)
    (ht : ¬ capTrigger cfg (sumSize (agePhase cfg now listing).1)
      ((agePhase cfg now listing).1.length) = true) :
    cleanup_thumbs cfg now listing
      = ((agePhase cfg now listing).1, (agePhase cfg now listing).2, []) := by
  rw [cleanup_thumbs_eq, if_neg ht]

/-- Post-state of one sweep: every remaining file fails the age test, and
either both capacity bounds (when enabled) hold for the remaining files or
every remaining file is pinned by `keep`. -/
theorem cleanup_post (cfg : SweepCfg) (now : Int) (listing : List FileEnt) :
    (∀ f ∈ (cleanup_thumbs cfg now listing).1, ageCond cfg now f = false)
      ∧ (((cfg.maxBytes ≠ 0 → sumSize (cleanup_thumbs cfg now listing).1 ≤ cfg.maxBytes)
            ∧ (cfg.maxFiles ≠ 0 → (cleanup_thumbs cfg now listing).1.length ≤ cfg.maxFiles))
          ∨ (∀ f ∈ (cleanup_thumbs cfg now listing).1, stemOf f ∈ cfg.keep)) := by
  have hmem_age : ∀ f ∈ (agePhase cfg now listing).1, ageCond cfg now f = false := by
    intro f hf
    rw [agePhase_eq] at hf
    have := List.of_mem_filter hf
    simpa using this
  by_cases ht : capTrigger cfg (sumSize (agePhase cfg now listing).1)
      ((agePhase cfg now listing).1.length) = true
  · have he1 : (cleanup_thumbs cfg now listing).1
        = (capLoop cfg (isort fileLater (agePhase cfg now listing).1)
            (sumSize (agePhase cfg now listing).1) ((agePhase cfg now listing).1.length)).1 := by
      rw [cleanup_pos_eq cfg now listing ht]
    constructor
    · intro f hf
      rw [he1] at hf
      exact hmem_age f ((isort_perm fileLater _).mem_iff.mp (capLoop_fst_mem cfg _ _ _ f hf))
    · have hperm := isort_perm fileLater (agePhase cfg now listing).1
      have hsz : sumSize (agePhase cfg now listing).1
          = sumSize (isort fileLater (agePhase cfg now listing).1) + 0 := by
        rw [sumSize_perm hperm]; omega
      have hlen : (agePhase cfg now listing).1.length
          = (isort fileLater (agePhase cfg now listing).1).length + 0 := by
        rw [hperm.length_eq]; omega
      rcases capLoop_bounds cfg _ _ _ 0 0 hsz hlen with ⟨h1, h2⟩ | hall
      · left
        rw [he1]
        exact ⟨fun hB => by have := h1 hB; omega, fun hF => by have := h2 hF; omega⟩
      · right; rw [he1]; exact hall
  · have he1 : (cleanup_thumbs cfg now listing).1 = (agePhase cfg now listing).1 := by
      rw [cleanup_neg_eq cfg now listing ht]
    refine ⟨by rw [he1]; exact hmem_age, Or.inl ⟨?_, ?_⟩⟩
    · intro hB
      rw [he1]
      by_contra hgt
      apply ht
      simp only [capTrigger, Bool.or_eq_true, Bool.and_eq_true, bne_iff_ne, decide_eq_true_eq]
      exact Or.inl ⟨hB, by omega⟩
    · intro hF
      rw [he1]
      by_contra hgt
      apply ht
      simp only [capTrigger, Bool.or_eq_true, Bool.and_eq_true, bne_iff_ne, decide_eq_true_eq]
      exact Or.inr ⟨hF, by omega⟩

/-- Files pinned by `keep` survive the sweep (shared by C3 and C4). -/
theorem keep_survives (cfg : SweepCfg) (now : Int) (listing : List FileEnt) (f : FileEnt)
    (hf : f ∈ listing) (hk : stemOf f ∈ cfg.keep) :
    f ∈ (cleanup_thumbs cfg now listing).1 := by
  have hage : f ∈ (agePhase cfg now listing).1 := by
    rw [agePhase_eq]
    refine List.mem_filter.mpr ⟨hf, ?_⟩
    simp [ageCond, hk]
  by_cases ht : capTrigger cfg (sumSize (agePhase cfg now listing).1)
      ((agePhase cfg now listing).1.length) = true
  · rw [cleanup_pos_eq cfg now listing ht]
    exact capLoop_keep_mem cfg _ _ _ f ((isort_perm fileLater _).mem_iff.mpr hage) hk
  · rw [cleanup_neg_eq cfg now listing ht]; exact hage

/-! ### Claim theorems: ThumbnailCache sweep -/

/-- C3: a cache file whose key is in `keep` is removed by neither phase of
the sweep: it is still present in the remaining files, for every
filesystem state, reference time, bounds and age. -/
theorem C3_keep_never_removed (cfg : SweepCfg) (now : Int) (listing : List FileEnt)
    (f : FileEnt) (hf : f ∈ listing) (hk : stemOf f ∈ cfg.keep) :
    f ∈ (cleanup_thumbs cfg now listing).1 :=
  keep_survives cfg now listing f hf hk

theorem C3_keep_never_removed_witness :
    (⟨"k.img".data, -864000000, 7⟩ : FileEnt)
      ∈ (cleanup_thumbs ⟨1, 1, 1, ["k".data]⟩ 0
          [⟨"k.img".data, -864000000, 7⟩, ⟨"o.img".data, 0, 5⟩]).1 :=
  C3_keep_never_removed ⟨1, 1, 1, ["k".data]⟩ 0
    [⟨"k.img".data, -864000000, 7⟩, ⟨"o.img".data, 0, 5⟩]
    ⟨"k.img".data, -864000000, 7⟩ (by decide) (by decide)

/-- C4: with both capacity bounds positive (and deletions succeeding,
which the embedding assumes), after the sweep either the total size and
count of the remaining files are within the bounds, or every remaining
file is pinned by `keep` (every non-kept file was removed and the bounds
may remain exceeded); kept files always remain; and the capacity phase
removes files in ascending modification-time order. -/
theorem C4_capacity_bounds (cfg : SweepCfg) (now : Int) (listing : List FileEnt)
    (hB : cfg.maxBytes ≠ 0) (hF : cfg.maxFiles ≠ 0) :
    ((sumSize (cleanup_thumbs cfg now listing).1 ≤ cfg.maxBytes
        ∧ (cleanup_thumbs cfg now listing).1.length ≤ cfg.maxFiles)
      ∨ (∀ f ∈ (cleanup_thumbs cfg now listing).1, stemOf f ∈ cfg.keep))
    ∧ (∀ f ∈ listing, stemOf f ∈ cfg.keep → f ∈ (cleanup_thumbs cfg now listing).1)
    ∧ ((cleanup_thumbs cfg now listing).2.2).Pairwise (fun a b => a.mtime ≤ b.mtime) := by
  refine ⟨?_, fun f hf hk => keep_survives cfg now listing f hf hk, ?_⟩
  · rcases (cleanup_post cfg now listing).2 with ⟨h1, h2⟩ | hall
    · exact Or.inl ⟨h1 hB, h2 hF⟩
    · exact Or.inr hall
  · by_cases ht : capTrigger cfg (sumSize (agePhase cfg now listing).1)
        ((agePhase cfg now listing).1.length) = true
    · rw [cleanup_pos_eq cfg now listing ht]
      have hsorted := isort_pairwise fileLater
        (fun a b h => by simp [fileLater] at h ⊢; omega)
        (fun a b c h => by simp [fileLater] at h ⊢; omega)
        (agePhase cfg now listing).1
      have hsorted' : (isort fileLater (agePhase cfg now listing).1).Pairwise
          (fun a b => a.mtime ≤ b.mtime) :=
        hsorted.imp (fun {a b} h => by simp [fileLater] at h; omega)
      exact hsorted'.sublist (capLoop_snd_sublist cfg _ _ _)
    · rw [cleanup_neg_eq cfg now listing ht]
      exact List.Pairwise.nil

theorem C4_capacity_bounds_witness :
    sumSize (cleanup_thumbs ⟨10, 1, 0, []⟩ 0
        [⟨"a.img".data, 5, 8⟩, ⟨"b.img".data, 9, 4⟩]).1 ≤ 10 := by
  have h := C4_capacity_bounds ⟨10, 1, 0, []⟩ 0
    [⟨"a.img".data, 5, 8⟩, ⟨"b.img".data, 9, 4⟩] (by decide) (by decide)
  rcases h.1 with ⟨h1, _⟩ | hall
  · exact h1
  · exact absurd (hall ⟨"b.img".data, 9, 4⟩ (by decide)) (by decide)

/-- C7: running the sweep a second time on the files the first sweep left
(in any listing order), with the same reference time, bounds and keep set,
deletes nothing: both the age-phase and capacity-phase removal lists of
the second run are empty. -/
theorem C7_sweep_idempotent (cfg : SweepCfg) (now : Int) (listing l₂ : List FileEnt)
    (h : List.Perm l₂ (cleanup_thumbs cfg now listing).1) :
    (cleanup_thumbs cfg now l₂).2.1 = [] ∧ (cleanup_thumbs cfg now l₂).2.2 = [] := by
  obtain ⟨hage, hcap⟩ := cleanup_post cfg now listing
  have hnc : ∀ f ∈ l₂, ageCond cfg now f = false := fun f hf => hage f (h.mem_iff.mp hf)
  have hap : agePhase cfg now l₂ = (l₂, []) := by
    rw [agePhase_eq]
    have e1 : l₂.filter (fun f => !(ageCond cfg now f)) = l₂ :=
      List.filter_eq_self.mpr (fun f hf => by simp [hnc f hf])
    have e2 : l₂.filter (fun f => ageCond cfg now f) = [] :=
      List.filter_eq_nil_iff.mpr (fun f hf => by simp [hnc f hf])
    rw [e1, e2]
  have hap1 : (agePhase cfg now l₂).1 = l₂ := by rw [hap]
  have hap2 : (agePhase cfg now l₂).2 = [] := by rw [hap]
  have hsum : sumSize l₂ = sumSize (cleanup_thumbs cfg now listing).1 := sumSize_perm h
  have hlen : l₂.length = (cleanup_thumbs cfg now listing).1.length := h.length_eq
  by_cases ht : capTrigger cfg (sumSize (agePhase cfg now l₂).1)
      ((agePhase cfg now l₂).1.length) = true
  · have hall : ∀ f ∈ (cleanup_thumbs cfg now listing).1, stemOf f ∈ cfg.keep := by
      rcases hcap with ⟨h1, h2⟩ | hall
      · exfalso
        rw [hap1] at ht
        simp only [capTrigger, Bool.or_eq_true, Bool.and_eq_true, bne_iff_ne,
          decide_eq_true_eq] at ht
        rcases ht with ⟨hB, hgt⟩ | ⟨hF, hgt⟩
        · have := h1 hB; omega
        · have := h2 hF; omega
      · exact hall
    have hall₂ : ∀ f ∈ isort fileLater (agePhase cfg now l₂).1, stemOf f ∈ cfg.keep := by
      intro f hf
      rw [hap1] at hf
      exact hall f (h.mem_iff.mp ((isort_perm fileLater l₂).mem_iff.mp hf))
    rw [cleanup_pos_eq cfg now l₂ ht]
    constructor
    · show (agePhase cfg now l₂).2 = []
      exact hap2
    · show (capLoop cfg (isort fileLater (agePhase cfg now l₂).1)
        (sumSize (agePhase cfg now l₂).1) ((agePhase cfg now l₂).1.length)).2 = []
      rw [capLoop_allkept cfg _ _ _ hall₂]
  · rw [cleanup_neg_eq cfg now l₂ ht]
    exact ⟨hap2, rfl⟩

theorem C7_sweep_idempotent_witness :
    (cleanup_thumbs ⟨1, 1, 1, []⟩ 0 []).2.1 = []
      ∧ (cleanup_thumbs ⟨1, 1, 1, []⟩ 0 []).2.2 = [] :=
  C7_sweep_idempotent ⟨1, 1, 1, []⟩ 0 [] [] (by decide)

/-- C10: a zero bound is falsy in Python and disables the corresponding
check instead of enforcing a zero limit: with `max_age_days = 0` the age
phase removes nothing whatever the file ages, and with `max_bytes = 0`
and `max_files = 0` the capacity phase removes nothing whatever the total
size or count, so the sweep only performs its (possibly empty) age
phase. -/
theorem C10_zero_disables (cfg : SweepCfg) (now : Int) (listing : List FileEnt) :
    (cfg.maxAgeDays = 0 → agePhase cfg now listing = (listing, []))
      ∧ (cfg.maxBytes = 0 → cfg.maxFiles = 0 →
          cleanup_thumbs cfg now listing
            = ((agePhase cfg now listing).1, (agePhase cfg now listing).2, [])) := by
  constructor
  · intro h0
    have hc : ∀ f, ageCond cfg now f = false := fun f => by simp [ageCond, h0]
    rw [agePhase_eq]
    have e1 : listing.filter (fun f => !(ageCond cfg now f)) = listing :=
      List.filter_eq_self.mpr (fun f _ => by simp [hc f])
    have e2 : listing.filter (fun f => ageCond cfg now f) = [] :=
      List.filter_eq_nil_iff.mpr (fun f _ => by simp [hc f])
    rw [e1, e2]
  · intro hB hF
    exact cleanup_neg_eq cfg now listing (by simp [capTrigger, hB, hF])

theorem C10_zero_disables_witness :
    cleanup_thumbs ⟨0, 0, 0, []⟩ 0 [⟨"a.img".data, -864000000, 999⟩]
      = ([⟨"a.img".data, -864000000, 999⟩], [], []) := by
  have h := C10_zero_disables ⟨0, 0, 0, []⟩ 0 [⟨"a.img".data, -864000000, 999⟩]
  rw [h.2 rfl rfl, h.1 rfl]

/-! ### Lemmas about the parser -/

theorem ciPrefix_lower : ∀ (pat cs m r : Str), ciPrefix pat cs = some (m, r) → lowerStr m = pat := by
  intro pat
  induction pat with
  | nil =>
    intro cs m r h
    simp only [ciPrefix, Option.some.injEq, Prod.mk.injEq] at h
    rw [← h.1]
    rfl
  | cons p ps ih =>
    intro cs m r h
    cases cs with
    | nil => simp [ciPrefix] at h
    | cons c cs' =>
      simp only [ciPrefix] at h
      by_cases hc : c.toLower = p
      · rw [if_pos hc] at h
        cases hm : ciPrefix ps cs' with
        | none => rw [hm] at h; simp at h
        | some pr =>
          obtain ⟨m', r'⟩ := pr
          rw [hm] at h
          simp only [Option.some.injEq, Prod.mk.injEq] at h
          rw [← h.1]
          show c.toLower :: lowerStr m' = p :: ps
          rw [hc, ih cs' m' r' hm]
      · rw [if_neg hc] at h; simp at h

theorem qualAlt_lower (pat cs m : Str) (h : qualAlt pat cs = some m) : lowerStr m = pat := by
  unfold qualAlt at h
  split at h
  next m' r heq =>
    split at h
    · simp only [Option.some.injEq] at h
      rw [← h]
      exact ciPrefix_lower pat cs m' r heq
    · exact Option.noConfusion h
  next => exact Option.noConfusion h

theorem qualityAt_lower (cs m : Str) (h : qualityAt cs = some m) :
    lowerStr m = "2160p".data ∨ lowerStr m = "1080p".data ∨ lowerStr m = "720p".data := by
  unfold qualityAt at h
  split at h
  next m1 heq =>
    simp only [Option.some.injEq] at h
    exact Or.inl (h ▸ qualAlt_lower _ _ _ heq)
  next heq =>
    split at h
    next m2 heq2 =>
      simp only [Option.some.injEq] at h
      exact Or.inr (Or.inl (h ▸ qualAlt_lower _ _ _ heq2))
    next heq2 => exact Or.inr (Or.inr (qualAlt_lower _ _ _ h))

theorem bsearchGo_sound {α : Type} {P : α → Prop} (tryAt : Str → Option α)
    (ht : ∀ cs a, tryAt cs = some a → P a) :
    ∀ (b : Bool) (l : Str) (a : α), bsearchGo tryAt b l = some a → P a := by
  intro b l
  induction l generalizing b with
  | nil => intro a h; simp [bsearchGo] at h
  | cons c rest ih =>
    intro a h
    cases b with
    | true => exact ih (isWord c) a h
    | false =>
      have hstep : bsearchGo tryAt false (c :: rest)
          = match tryAt (c :: rest) with
            | some a => some a
            | none => bsearchGo tryAt (isWord c) rest := rfl
      rw [hstep] at h
      cases htry : tryAt (c :: rest) with
      | some a' =>
        rw [htry] at h
        exact (Option.some.inj h) ▸ ht (c :: rest) a' htry
      | none =>
        rw [htry] at h
        exact ih (isWord c) a h

theorem bsearch_sound {α : Type} {P : α → Prop} (tryAt : Str → Option α)
    (ht : ∀ cs a, tryAt cs = some a → P a) (s : Str) (a : α)
    (h : bsearch tryAt s = some a) : P a :=
  bsearchGo_sound tryAt ht false s a h

theorem quality_lower (txt m : Str) (h : bsearch qualityAt txt = some m) :
    lowerStr m = "2160p".data ∨ lowerStr m = "1080p".data ∨ lowerStr m = "720p".data :=
  bsearch_sound qualityAt (fun cs a hq => qualityAt_lower cs a hq) txt m h

/-- Every accepted entry passes the date check, the cutoff check, the
title regex and the year allow-list, and its item is the `buildItem`
record of the captured pieces. -/
theorem parseEntry_spec (cat : Str) (cutoff : Int) (e : RawEntry) (itm : Item)
    (h : parseEntry cat cutoff e = some itm) :
    ∃ pub raw y, e.pub = some pub ∧ ¬ pub < cutoff ∧ titleSearch e.title = some (raw, y)
      ∧ (y = "2025".data ∨ y = "2024".data) ∧ itm = buildItem cat e pub raw y := by
  unfold parseEntry at h
  split at h
  next => exact Option.noConfusion h
  next pub hp =>
    split at h
    next hc => exact Option.noConfusion h
    next hc =>
      split at h
      next ht => exact Option.noConfusion h
      next raw y ht =>
        split at h
        next hy => exact ⟨pub, raw, y, hp, hc, ht, hy, (Option.some.inj h).symm⟩
        next hy => exact Option.noConfusion h

/-! ### Claim theorems: EntryParser -/

/-- Concrete feed entries used in the closed parts of the parser claims. -/
def cexEntry : RawEntry := ⟨" (2024) 1080P".data, "x".data, some 0, []⟩

def okEntry : RawEntry := ⟨"Abc (2024)".data, "x".data, some 5, []⟩

def okItem : Item :=
  ⟨"x264/1080p".data, "Abc".data, "2024".data, [], "Nie".data, "Nie".data, "Nie".data,
    [], "x".data, 5, [], []⟩

def exShow : RawEntry := ⟨"Show (2025) S02E05".data, "x".data, some 0, []⟩

def exSezon : RawEntry := ⟨"Show (2025) Sezon 3 E01-03".data, "x".data, some 0, []⟩

def showItem : Item :=
  ⟨"Seriale".data, "Show".data, "2025".data, [], "Nie".data, "Nie".data, "Nie".data,
    [], "x".data, 0, "2".data, "5".data⟩

/-- C5 counterexample: the feed entry titled `" (2024) 1080P"` (publish
date on the cutoff) is accepted, and its item has an empty title (the
regex captures a whitespace-only title that `strip()` empties), quality
`"1080P"` — which is none of `"2160p"`, `"1080p"`, `"720p"`, `""` because
the case-insensitive match returns the text as written — and
tag defaults `"Nie"`, not `"None"`. This refutes the claimed invariant as
stated. -/
theorem C5_item_invariant_counterexample :
    (parse_entries "x264/1080p".data [cexEntry] 0).map Item.title = [[]]
      ∧ (parse_entries "x264/1080p".data [cexEntry] 0).map Item.quality = ["1080P".data]
      ∧ ¬ ("1080P".data = "2160p".data ∨ "1080P".data = "1080p".data
            ∨ "1080P".data = "720p".data ∨ "1080P".data = ([] : Str))
      ∧ (parse_entries "x264/1080p".data [cexEntry] 0).map Item.napisy = ["Nie".data]
      ∧ ("Nie".data : Str) ≠ "None".data := by
  refine ⟨by decide, by decide, by decide, by decide, by decide⟩

/-- C5 (amended): every item produced by `parse_entries` has a year in
the hardcoded allow-list, a quality that is empty or lowercases to one of
the three known tokens (the stored text keeps the case found in the
title), a publish timestamp at or after the cutoff, season/episode
populated only when the category lowercases to `"seriale"`, and — for the
entry it was built from — a title equal to the whitespace-stripped regex
capture (possibly empty), with `napisy`/`dubbing` defaulting to `"Nie"`
when their tag pattern finds no match and `lektor` defaulting to
`"Film Polski"` when the lowercased title contains `"film polski"` and to
`"Nie"` otherwise. -/
theorem C5_item_invariant (cat : Str) (cutoff : Int) (es : List RawEntry) (itm : Item)
    (h : itm ∈ parse_entries cat es cutoff) :
    (itm.year = "2025".data ∨ itm.year = "2024".data)
      ∧ (itm.quality = [] ∨ lowerStr itm.quality = "2160p".data
          ∨ lowerStr itm.quality = "1080p".data ∨ lowerStr itm.quality = "720p".data)
      ∧ cutoff ≤ itm.pubDate
      ∧ ((itm.season ≠ [] ∨ itm.episode ≠ []) → lowerStr cat = "seriale".data)
      ∧ ∃ e ∈ es, parseEntry cat cutoff e = some itm
          ∧ (∃ raw, titleSearch e.title = some (raw, itm.year) ∧ itm.title = stripWs raw)
          ∧ (rsearch (tagAt "napisy".data true) e.title = none → itm.napisy = "Nie".data)
          ∧ (rsearch (tagAt "dubbing".data false) e.title = none → itm.dubbing = "Nie".data)
          ∧ (rsearch (tagAt "lektor".data true) e.title = none →
              itm.lektor = if containsSub "film polski".data (lowerStr e.title)
                then "Film Polski".data else "Nie".data) := by
  rw [parse_entries] at h
  obtain ⟨e, he, hpe⟩ := List.mem_filterMap.mp h
  obtain ⟨pub, raw, y, hp, hc, ht, hy, hitm⟩ := parseEntry_spec cat cutoff e itm hpe
  subst hitm
  refine ⟨hy, ?_, ?_, ?_, e, he, hpe, ⟨raw, ht, rfl⟩, ?_, ?_, ?_⟩
  · have hqd : (buildItem cat e pub raw y).quality = (bsearch qualityAt e.title).getD [] := rfl
    rw [hqd]
    cases hq : bsearch qualityAt e.title with
    | none => exact Or.inl rfl
    | some m =>
      rcases quality_lower e.title m hq with h1 | h1 | h1
      · exact Or.inr (Or.inl (by simpa using h1))
      · exact Or.inr (Or.inr (Or.inl (by simpa using h1)))
      · exact Or.inr (Or.inr (Or.inr (by simpa using h1)))
  · show cutoff ≤ pub
    omega
  · intro hne
    by_contra hcat
    have hs : (buildItem cat e pub raw y).season = [] := by
      show (if lowerStr cat = "seriale".data then seasonEpisode (lowerStr e.title)
        else ([], [])).1 = []
      rw [if_neg hcat]
    have hep : (buildItem cat e pub raw y).episode = [] := by
      show (if lowerStr cat = "seriale".data then seasonEpisode (lowerStr e.title)
        else ([], [])).2 = []
      rw [if_neg hcat]
    rcases hne with hne | hne
    · exact hne hs
    · exact hne hep
  · intro hn
    show (match rsearch (tagAt "napisy".data true) e.title with
      | some m => stripBrackets m
      | none => "Nie".data) = "Nie".data
    rw [hn]
  · intro hn
    show (match rsearch (tagAt "dubbing".data false) e.title with
      | some m => stripBrackets m
      | none => "Nie".data) = "Nie".data
    rw [hn]
  · intro hn
    show (match rsearch (tagAt "lektor".data true) e.title with
      | some m => stripBrackets m
      | none => if containsSub "film polski".data (lowerStr e.title)
          then "Film Polski".data else "Nie".data)
      = if containsSub "film polski".data (lowerStr e.title)
          then "Film Polski".data else "Nie".data
    rw [hn]

theorem C5_item_invariant_witness :
    (3 : Int) ≤ okItem.pubDate ∧ (okItem.year = "2025".data ∨ okItem.year = "2024".data) := by
  have h := C5_item_invariant "x264/1080p".data 3 [okEntry] okItem (by decide)
  exact ⟨h.2.2.1, h.1⟩

/-- C6: for a series-category entry the season/episode pair of the
produced item is exactly `seasonEpisode` of the lowercased title, where
the combined `S<n>E<n>` pattern wins outright, otherwise season and
episode are extracted independently (`sezon <n>` else `S<n>`; range
`E<n>-<m>` stored as `"<n>-<m>"` else single `E<n>`), and the absence of
every pattern leaves the field empty rather than failing. In particular
`"Show (2025) S02E05"` yields season `"2"`, episode `"5"`, and
`"Show (2025) Sezon 3 E01-03"` yields season `"3"`, episode `"1-3"`. -/
theorem C6_season_episode (cat : Str) (cutoff : Int) (e : RawEntry) (itm : Item)
    (hcat : lowerStr cat = "seriale".data) (h : parseEntry cat cutoff e = some itm) :
    (itm.season, itm.episode) = seasonEpisode (lowerStr e.title)
      ∧ (∀ s n, bsearch combinedAt (lowerStr e.title) = some (s, n) →
          itm.season = natToStr s ∧ itm.episode = natToStr n)
      ∧ (bsearch combinedAt (lowerStr e.title) = none →
          bsearch sezonAt (lowerStr e.title) = none →
          bsearch sAloneAt (lowerStr e.title) = none →
          bsearch rangeAt (lowerStr e.title) = none →
          bsearch singleEAt (lowerStr e.title) = none →
          itm.season = [] ∧ itm.episode = [])
      ∧ (parse_entries "Seriale".data [exShow] 0).map (fun i => (i.season, i.episode))
          = [("2".data, "5".data)]
      ∧ (parse_entries "Seriale".data [exSezon] 0).map (fun i => (i.season, i.episode))
          = [("3".data, "1-3".data)] := by
  obtain ⟨pub, raw, y, hp, hc, ht, hy, hitm⟩ := parseEntry_spec cat cutoff e itm h
  subst hitm
  have hs : (buildItem cat e pub raw y).season = (seasonEpisode (lowerStr e.title)).1 := by
    show (if lowerStr cat = "seriale".data then seasonEpisode (lowerStr e.title)
      else ([], [])).1 = (seasonEpisode (lowerStr e.title)).1
    rw [if_pos hcat]
  have hep : (buildItem cat e pub raw y).episode = (seasonEpisode (lowerStr e.title)).2 := by
    show (if lowerStr cat = "seriale".data then seasonEpisode (lowerStr e.title)
      else ([], [])).2 = (seasonEpisode (lowerStr e.title)).2
    rw [if_pos hcat]
  refine ⟨?_, ?_, ?_, by decide, by decide⟩
  · rw [hs, hep]
  · intro sn n hcomb
    rw [hs, hep]
    unfold seasonEpisode
    rw [hcomb]
    exact ⟨rfl, rfl⟩
  · intro h1 h2 h3 h4 h5
    rw [hs, hep]
    unfold seasonEpisode
    rw [h1, h2, h3, h4, h5]
    exact ⟨rfl, rfl⟩

theorem C6_season_episode_witness :
    (showItem.season, showItem.episode) = seasonEpisode (lowerStr exShow.title) :=
  (C6_season_episode "Seriale".data 0 exShow showItem (by decide) (by decide)).1

end ElectroRSS
